import Mathlib

/-
Verification of the tradingAssistant daily cross-sectional metrics engine
and of the frontend indicator / template utilities.

The backend engine (per the design documents `yahoo_table_generation.sql`
and the screening-feature plan) computes, for every symbol and calculation
date, multi-horizon percentage changes, a weighted momentum score, and a
cross-sectional 1-99 percentile rating, and persists one row per
(symbol, calculation_date) via batched ON CONFLICT upserts.  The frontend
utilities (`indicators.ts`, `templates.ts`) compute SMA/EMA overlays and
manage chart templates in browser storage.
-/

namespace TA

/-! ## Cross-Sectional Ranker

Modelled from the spec: the scripts `relative_strength.py` /
`calculate_screening_metrics.py` are not part of the available sources
(only the `stock_indicators` schema and the design plan are), so the
ranker is modelled from spec section 4.4: rank qualifying symbols
ascending by `weighted_change`, ties broken by symbol lexical order,
and assign `round(1 + 98 * rank / (count - 1))`; fewer than 2
qualifying symbols means every rating is null. -/

variable {σ : Type*} [LinearOrder σ]

/-- Strict ascending order on (symbol, weighted_change) entries:
by score first, ties broken by symbol lexical order. -/
def keyLt (p q : σ × ℚ) : Prop :=
  p.2 < q.2 ∨ (p.2 = q.2 ∧ p.1 < q.1)

instance keyLt.instDecidable (p q : σ × ℚ) : Decidable (keyLt p q) := by
  unfold keyLt; infer_instance

theorem keyLt_irrefl (p : σ × ℚ) : ¬ keyLt p p := by
  simp [keyLt]

theorem keyLt_trans {p q r : σ × ℚ} (h₁ : keyLt p q) (h₂ : keyLt q r) :
    keyLt p r := by
  rcases h₁ with h₁ | ⟨h₁, h₁s⟩ <;> rcases h₂ with h₂ | ⟨h₂, h₂s⟩
  · exact Or.inl (lt_trans h₁ h₂)
  · exact Or.inl (h₂ ▸ h₁)
  · exact Or.inl (h₁ ▸ h₂)
  · exact Or.inr ⟨h₁.trans h₂, lt_trans h₁s h₂s⟩

theorem keyLt_of_ne {p q : σ × ℚ} (hfst : p.1 ≠ q.1) :
    keyLt p q ∨ keyLt q p := by
  rcases lt_trichotomy p.2 q.2 with h | h | h
  · exact Or.inl (Or.inl h)
  · rcases lt_or_gt_of_ne hfst with hs | hs
    · exact Or.inl (Or.inr ⟨h, hs⟩)
    · exact Or.inr (Or.inr ⟨h.symm, hs⟩)
  · exact Or.inr (Or.inl h)

theorem keyLt_asymm {p q : σ × ℚ} (h : keyLt p q) : ¬ keyLt q p := by
  intro h'
  exact keyLt_irrefl p (keyLt_trans h h')

/-- The qualifying population of a date: entries whose weighted_change
is non-null, keeping symbol order. -/
def qualifying (pop : List (σ × Option ℚ)) : List (σ × ℚ) :=
  pop.filterMap (fun e => e.2.map (fun c => (e.1, c)))

/-- Zero-based ascending rank of an entry: the number of entries of the
qualifying list strictly below it in the (score, symbol) order. -/
def rank (l : List (σ × ℚ)) (p : σ × ℚ) : ℕ :=
  l.countP (fun q => decide (keyLt q p))

/-- Percentile rating for rank `r` in a population of `n` qualifying
symbols: `round(1 + 98 * r / (n - 1))`. -/
def ratingQ (n r : ℕ) : ℤ :=
  round ((1 : ℚ) + 98 * (r : ℚ) / ((n : ℚ) - 1))

/-- Rating assigned to one population entry: null when the entry has a
null weighted_change or when fewer than 2 symbols qualify. -/
def ratingOf (pop : List (σ × Option ℚ)) (e : σ × Option ℚ) : Option ℤ :=
  match e.2 with
  | none => none
  | some c =>
      if (qualifying pop).length < 2 then none
      else some (ratingQ (qualifying pop).length (rank (qualifying pop) (e.1, c)))

/-- All ratings for a date, one per population entry. -/
def rsRatings (pop : List (σ × Option ℚ)) : List (σ × Option ℤ) :=
  pop.map (fun e => (e.1, ratingOf pop e))

/-- Full specification of the cross-sectional ranker on a date with at
least two qualifying symbols: every qualifying symbol is rated by the
percentile formula at its ascending rank; every rating lies in [1,99];
ratings are non-decreasing in weighted_change; some minimum-scored
symbol is rated 1 and some maximum-scored symbol 99; exactly as many
ratings are assigned as there are qualifying symbols, and the assigned
ranks are exactly the positions 0..N-1 of the stable ascending order. -/
def rankerSpec (pop : List (σ × Option ℚ)) : Prop :=
  (∀ e ∈ pop, ∀ c, e.2 = some c →
      ratingOf pop e =
        some (ratingQ (qualifying pop).length (rank (qualifying pop) (e.1, c)))) ∧
  (∀ p ∈ qualifying pop,
      1 ≤ ratingQ (qualifying pop).length (rank (qualifying pop) p) ∧
      ratingQ (qualifying pop).length (rank (qualifying pop) p) ≤ 99) ∧
  (∀ p ∈ qualifying pop, ∀ q ∈ qualifying pop, p.2 < q.2 →
      ratingQ (qualifying pop).length (rank (qualifying pop) p) ≤
        ratingQ (qualifying pop).length (rank (qualifying pop) q)) ∧
  (∃ p ∈ qualifying pop, (∀ q ∈ qualifying pop, p.2 ≤ q.2) ∧
      ratingQ (qualifying pop).length (rank (qualifying pop) p) = 1) ∧
  (∃ p ∈ qualifying pop, (∀ q ∈ qualifying pop, q.2 ≤ p.2) ∧
      ratingQ (qualifying pop).length (rank (qualifying pop) p) = 99) ∧
  (pop.countP (fun e => (ratingOf pop e).isSome) = (qualifying pop).length) ∧
  ((qualifying pop).toFinset.image (rank (qualifying pop)) =
      Finset.range (qualifying pop).length)

/-- Modelled from the spec: the weighted momentum scorer of
`relative_strength.py` is not in the available sources; per spec
section 4.3 it combines the 3/6/9/12-month percentage changes with
fixed configuration weights, and is null as soon as any input horizon
is null. -/
def weightedChange (w3 w6 w9 w12 : ℚ) (c3 c6 c9 c12 : Option ℚ) : Option ℚ :=
  match c3, c6, c9, c12 with
  | some a, some b, some c, some d => some (w3 * a + w6 * b + w9 * c + w12 * d)
  | _, _, _, _ => none

/-! ## Metrics store writer (keyed upsert)

Modelled from the spec and the storage pattern of the screening plan:
the writer scripts are not in the available sources; the plan's
`INSERT ... ON CONFLICT (symbol, calculation_date) DO UPDATE SET ...`
against the `stock_indicators` table with
`PRIMARY KEY (symbol, calculation_date)` is modelled as a keyed table
(`κ` the key type, `α` the full non-key payload) with an
insert-or-overwrite upsert. -/

/-- One upsert: if a row with the record's key exists, overwrite every
column of that row; otherwise append the record as a new row. -/
def upsert {κ α : Type*} [DecidableEq κ] (t : List (κ × α)) (r : κ × α) :
    List (κ × α) :=
  if t.any (fun x => decide (x.1 = r.1)) then
    t.map (fun x => if x.1 = r.1 then r else x)
  else t ++ [r]

/-- A batch run: upsert every computed record in order. -/
def upsertAll {κ α : Type*} [DecidableEq κ] (t : List (κ × α))
    (rs : List (κ × α)) : List (κ × α) :=
  rs.foldl upsert t

/-- Value of the first row with the given key, if any. -/
def lookupRow {κ α : Type*} [DecidableEq κ] (t : List (κ × α)) (k : κ) :
    Option α :=
  (t.find? (fun x => decide (x.1 = k))).map Prod.snd

/-- Value carried by the last record with the given key in a batch. -/
def lastVal {κ α : Type*} [DecidableEq κ] (k : κ) :
    List (κ × α) → Option α
  | [] => none
  | r :: rs =>
      match lastVal k rs with
      | some v => some v
      | none => if r.1 = k then some r.2 else none

/-! ## Horizon Return Calculator

Modelled from the spec: the per-symbol return computation of
`relative_strength.py` is not in the available sources; per spec
section 4.1 it takes the close on or immediately before
`as_of - lookback` and on or immediately before `as_of`, returns
`(close_now - close_then) / close_then * 100`, and is null when no bar
exists at or before `as_of - lookback` or the reference close is
zero. -/

/-- One OHLCV bar, reduced to the fields the return calculator reads:
trading timestamp (days) and close price. -/
structure PriceBar where
  t : ℤ
  close : ℚ
deriving DecidableEq

/-- The bar on or immediately before date `d` in a chronologically
ordered series: the last bar whose timestamp is at most `d`. -/
def barOnOrBefore (bars : List PriceBar) (d : ℤ) : Option PriceBar :=
  (bars.filter (fun b => decide (b.t ≤ d))).getLast?

/-- Trailing percentage change of a bar series as of `asOf` over a
lookback of `lookback` calendar days. -/
def horizonReturn (bars : List PriceBar) (asOf lookback : ℤ) : Option ℚ :=
  match barOnOrBefore bars (asOf - lookback), barOnOrBefore bars asOf with
  | some bThen, some bNow =>
      if bThen.close = 0 then none
      else some ((bNow.close - bThen.close) / bThen.close * 100)
  | _, _ => none

/-- Full specification of the horizon return calculator on a
chronologically ordered bar series: the result is null exactly when no
reference bar exists at or before `asOf - lookback` or its close is
zero; otherwise it is the percentage-change formula applied to the
closes on or immediately before the two dates; and `barOnOrBefore`
indeed selects the latest bar at or before its date. -/
def horizonSpec (bars : List PriceBar) (asOf lookback : ℤ) : Prop :=
  (horizonReturn bars asOf lookback = none ↔
      barOnOrBefore bars (asOf - lookback) = none ∨
      (∃ b, barOnOrBefore bars (asOf - lookback) = some b ∧ b.close = 0)) ∧
  (∀ bThen bNow, barOnOrBefore bars (asOf - lookback) = some bThen →
      barOnOrBefore bars asOf = some bNow → bThen.close ≠ 0 →
      horizonReturn bars asOf lookback
        = some ((bNow.close - bThen.close) / bThen.close * 100)) ∧
  (barOnOrBefore bars (asOf - lookback) = none ↔
      ∀ b ∈ bars, asOf - lookback < b.t) ∧
  (∀ b, barOnOrBefore bars (asOf - lookback) = some b →
      b ∈ bars ∧ b.t ≤ asOf - lookback ∧
      ∀ x ∈ bars, x.t ≤ asOf - lookback → x.t ≤ b.t)

/-! ## Frontend indicator overlays (`frontend/src/utils/indicators.ts`)

`calculateSMA` and `calculateEMA` are embedded over (timestamp, source
value) pairs: the TypeScript reads `data[j][source]` uniformly, so the
source projection is applied up front. -/

/-- Seed value of the EMA and value of each SMA window: arithmetic mean
of `period` consecutive source values. -/
def smaSeed (data : List (ℤ × ℚ)) (period : ℕ) : ℚ :=
  ((data.take period).map Prod.snd).sum / (period : ℚ)

/-- `calculateSMA` from `indicators.ts`: empty when the series is
shorter than `period`; otherwise one point per bar from index
`period - 1` onward, valued at the mean of the `period` trailing source
values and stamped with that bar's time. -/
def calculateSMA (data : List (ℤ × ℚ)) (period : ℕ) : List (ℤ × ℚ) :=
  if data.length < period then []
  else
    (List.range (data.length - period + 1)).map
      (fun k => ((data.getD (k + period - 1) (0, 0)).1,
        smaSeed (data.drop k) period))

/-- The EMA recurrence loop of `calculateEMA`: starting from a previous
EMA value, emit `(price - ema) * multiplier + ema` for each remaining
bar. -/
def emaFrom (mult : ℚ) : ℚ → List (ℤ × ℚ) → List (ℤ × ℚ)
  | _, [] => []
  | e, p :: ps =>
      (p.1, (p.2 - e) * mult + e) :: emaFrom mult ((p.2 - e) * mult + e) ps

/-- `calculateEMA` from `indicators.ts`: empty when the series is
shorter than `period`; otherwise the seed SMA at bar `period - 1`
followed by the exponential recurrence over the remaining bars with
multiplier `2 / (period + 1)`. -/
def calculateEMA (data : List (ℤ × ℚ)) (period : ℕ) : List (ℤ × ℚ) :=
  if data.length < period then []
  else
    ((data.getD (period - 1) (0, 0)).1, smaSeed data period)
      :: emaFrom (2 / ((period : ℚ) + 1)) (smaSeed data period)
        (data.drop period)

/-- Specification of `calculateSMA`: empty on short input, exactly
`L - N + 1` points otherwise, and the k-th point is stamped with bar
`k + N - 1` and valued at the mean of the full N-bar window starting
at `k`. -/
def smaSpec (data : List (ℤ × ℚ)) (period : ℕ) : Prop :=
  (data.length < period → calculateSMA data period = []) ∧
  (period ≤ data.length →
    (calculateSMA data period).length = data.length - period + 1) ∧
  (∀ k, k < data.length - period + 1 → period ≤ data.length →
    (calculateSMA data period)[k]?
        = some ((data.getD (k + period - 1) (0, 0)).1,
            smaSeed (data.drop k) period) ∧
      ((data.drop k).take period).length = period)

/-- Specification of `calculateEMA`: empty on short input, exactly
`L - N + 1` points otherwise, first point the seed SMA stamped with bar
`N - 1`, and each later point obtained from its predecessor by the
recurrence `(price - ema) * (2 / (N + 1)) + ema` at the next bar. -/
def emaSpec (data : List (ℤ × ℚ)) (period : ℕ) : Prop :=
  (data.length < period → calculateEMA data period = []) ∧
  (period ≤ data.length →
    (calculateEMA data period).length = data.length - period + 1) ∧
  (period ≤ data.length →
    (calculateEMA data period).head?
      = some ((data.getD (period - 1) (0, 0)).1, smaSeed data period)) ∧
  (∀ k v w, (calculateEMA data period)[k]? = some v →
    (calculateEMA data period)[k + 1]? = some w →
    ∃ p, data[period + k]? = some p ∧
      w = (p.1, (p.2 - v.2) * (2 / ((period : ℚ) + 1)) + v.2))

/-! ## Batch partitioning (Metrics Store Writer, spec 4.6)

Modelled from the spec: the writer scripts are not in the available
sources; per the plan, records are processed in batches of
`batch_size` symbols (default 500), never one statement per symbol and
never one unbounded statement. -/

/-- Partition a record list into consecutive batches of at most `bs`
records each. -/
def chunk {β : Type*} (bs : ℕ) : List β → List (List β)
  | [] => []
  | x :: xs => (x :: xs.take (bs - 1)) :: chunk bs (xs.drop (bs - 1))
termination_by l => l.length
decreasing_by
  simp only [List.length_drop, List.length_cons]
  omega

/-- The default batch size of `calculate_and_store_metrics`. -/
def defaultBatchSize : ℕ := 500

/-! ## Batch Orchestrator state machine (spec 4.5)

Modelled from the spec: the orchestrator script is not in the available
sources; its run is the state machine `Idle → Resolving Universe →
Computing Batches (loop) → Ranking → Persisting → Done`, with `Failed`
reachable from every non-terminal state, and Ranking enterable only
once every one of the `nb` batches has been computed. -/

/-- Orchestrator states; `computing k` records that `k` batches have
completed. -/
inductive OState where
  | idle
  | resolving
  | computing (done : ℕ)
  | ranking
  | persisting
  | finished
  | failed
deriving DecidableEq

/-- One orchestrator transition for a run with `nb` batches. -/
def step (nb : ℕ) : OState → OState → Bool := fun s t =>
  match s, t with
  | .idle, .resolving => true
  | .resolving, .finished => nb == 0
  | .resolving, .computing k => k == 0 && decide (0 < nb)
  | .computing k, .computing k2 => decide (k < nb) && k2 == k + 1
  | .computing k, .ranking => k == nb
  | .ranking, .persisting => true
  | .persisting, .finished => true
  | s, .failed => !(s == .finished) && !(s == .failed)
  | _, _ => false

/-- Progress measure on orchestrator states, strictly increased by every
transition. -/
def phase (nb : ℕ) : OState → ℕ
  | .idle => 0
  | .resolving => 1
  | .computing k => 2 + min k nb
  | .ranking => 3 + nb
  | .persisting => 4 + nb
  | .finished => 5 + nb
  | .failed => 6 + nb

/-! ## Chart templates (`frontend/src/utils/templates.ts`) -/

/-- A stored chart template: id, name, indicator payload (abstract),
creation and update timestamps. Names and timestamps are modelled as
naturals; ISO timestamp order is their numeric order. -/
structure Template (ι : Type*) where
  tid : ℕ
  name : ℕ
  inds : ι
  created : ℕ
  updated : ℕ
deriving DecidableEq

/-- Replace the first element satisfying `p` (the `findIndex` +
in-place assignment step of `saveTemplate`). -/
def updateFirst {β : Type*} (p : β → Bool) (f : β → β) : List β → List β
  | [] => []
  | x :: xs => if p x then f x :: xs else x :: updateFirst p f xs

/-- `MAX_TEMPLATES` from `templates.ts`. -/
def maxTemplates : ℕ := 50

/-- The `templates.sort(...)` step: stable sort ascending by
`createdAt`. -/
def sortByCreated {ι : Type*} (ts : List (Template ι)) : List (Template ι) :=
  List.insertionSort (fun a b => a.created ≤ b.created) ts

/-- `saveTemplate` from `templates.ts`: overwrite the first template
with the given name in place (keeping its id and createdAt), else evict
the oldest-created template when the store is full, then append the new
template (whose id and createdAt are the current time). -/
def saveTemplate {ι : Type*} (now nm : ℕ) (inds : ι)
    (ts : List (Template ι)) : List (Template ι) :=
  if ts.any (fun t => decide (t.name = nm)) then
    updateFirst (fun t => decide (t.name = nm))
      (fun old => ⟨old.tid, nm, inds, old.created, now⟩) ts
  else if maxTemplates ≤ ts.length then
    (sortByCreated ts).tail ++ [⟨now, nm, inds, now, now⟩]
  else ts ++ [⟨now, nm, inds, now, now⟩]

instance byCreatedTotal {ι : Type*} :
    IsTotal (Template ι) (fun a b => a.created ≤ b.created) :=
  ⟨fun a b => Nat.le_total a.created b.created⟩

instance byCreatedTrans {ι : Type*} :
    IsTrans (Template ι) (fun a b => a.created ≤ b.created) :=
  ⟨fun _ _ _ hab hbc => Nat.le_trans hab hbc⟩

theorem rank_le_length (l : List (σ × ℚ)) (p : σ × ℚ) : rank l p ≤ l.length :=
  List.countP_le_length _

theorem rank_lt_length {l : List (σ × ℚ)} {p : σ × ℚ} (hp : p ∈ l) :
    rank l p < l.length := by
  rcases lt_or_eq_of_le (rank_le_length l p) with h | h
  · exact h
  · exact absurd (of_decide_eq_true (List.countP_eq_length.mp h p hp)) (keyLt_irrefl p)

theorem rank_strict_mono {l : List (σ × ℚ)} {p q : σ × ℚ}
    (hp : p ∈ l) (hpq : keyLt p q) : rank l p < rank l q := by
  have hsub : List.Sublist (l.filter (fun a => decide (keyLt a p)))
      (l.filter (fun a => decide (keyLt a q))) := by
    refine List.monotone_filter_right l ?_
    intro a ha
    exact decide_eq_true (keyLt_trans (of_decide_eq_true ha) hpq)
  rw [rank, rank, List.countP_eq_length_filter, List.countP_eq_length_filter]
  rcases lt_or_eq_of_le hsub.length_le with h | h
  · exact h
  · exfalso
    have heq := hsub.eq_of_length_le (le_of_eq h.symm)
    have hmem : p ∈ l.filter (fun a => decide (keyLt a q)) :=
      List.mem_filter.mpr ⟨hp, decide_eq_true hpq⟩
    rw [← heq] at hmem
    exact absurd (of_decide_eq_true (List.mem_filter.mp hmem).2) (keyLt_irrefl p)

theorem exists_keyLt_min (l : List (σ × ℚ)) (hne : l ≠ []) :
    ∃ p ∈ l, ∀ q ∈ l, ¬ keyLt q p := by
  induction l with
  | nil => exact absurd rfl hne
  | cons x xs ih =>
    rcases eq_or_ne xs [] with hxs | hxs
    · subst hxs
      exact ⟨x, List.mem_singleton.mpr rfl, by
        intro q hq
        rw [List.mem_singleton.mp hq]
        exact keyLt_irrefl x⟩
    · obtain ⟨m, hm, hmin⟩ := ih hxs
      by_cases hxm : keyLt x m
      · refine ⟨x, List.mem_cons_self x xs, ?_⟩
        intro q hq
        rcases List.mem_cons.mp hq with hq | hq
        · exact hq ▸ keyLt_irrefl x
        · intro hqx
          exact hmin q hq (keyLt_trans hqx hxm)
      · refine ⟨m, List.mem_cons_of_mem x hm, ?_⟩
        intro q hq
        rcases List.mem_cons.mp hq with hq | hq
        · exact hq ▸ hxm
        · exact hmin q hq

theorem exists_keyLt_max (l : List (σ × ℚ)) (hne : l ≠ []) :
    ∃ p ∈ l, ∀ q ∈ l, ¬ keyLt p q := by
  induction l with
  | nil => exact absurd rfl hne
  | cons x xs ih =>
    rcases eq_or_ne xs [] with hxs | hxs
    · subst hxs
      exact ⟨x, List.mem_singleton.mpr rfl, by
        intro q hq
        rw [List.mem_singleton.mp hq]
        exact keyLt_irrefl x⟩
    · obtain ⟨m, hm, hmax⟩ := ih hxs
      by_cases hxm : keyLt m x
      · refine ⟨x, List.mem_cons_self x xs, ?_⟩
        intro q hq
        rcases List.mem_cons.mp hq with hq | hq
        · exact hq ▸ keyLt_irrefl x
        · intro hxq
          exact hmax q hq (keyLt_trans hxm hxq)
      · refine ⟨m, List.mem_cons_of_mem x hm, ?_⟩
        intro q hq
        rcases List.mem_cons.mp hq with hq | hq
        · exact hq ▸ hxm
        · exact hmax q hq

theorem rank_of_min {l : List (σ × ℚ)} {p : σ × ℚ}
    (hmin : ∀ q ∈ l, ¬ keyLt q p) : rank l p = 0 := by
  rw [rank, List.countP_eq_zero]
  intro a ha
  simp only [decide_eq_true_eq]
  exact hmin a ha

theorem countP_eq_one_of_nodup {α : Type*} [DecidableEq α] {l : List α}
    (hnd : l.Nodup) {p : α} (hp : p ∈ l) :
    l.countP (fun a => decide (a = p)) = 1 := by
  induction l with
  | nil => cases hp
  | cons x xs ih =>
    have hx : x ∉ xs := (List.nodup_cons.mp hnd).1
    rw [List.countP_cons]
    rcases List.mem_cons.mp hp with h | h
    · subst h
      have hz : xs.countP (fun a => decide (a = p)) = 0 := by
        rw [List.countP_eq_zero]
        intro a ha
        simp only [decide_eq_true_eq]
        exact fun he => hx (he ▸ ha)
      simp [hz]
    · have hxp : x ≠ p := fun he => hx (he ▸ h)
      rw [ih (List.nodup_cons.mp hnd).2 h]
      simp [hxp]

theorem rank_of_max {l : List (σ × ℚ)} {p : σ × ℚ}
    (hnd : (l.map Prod.fst).Nodup) (hp : p ∈ l)
    (hmax : ∀ q ∈ l, ¬ keyLt p q) : rank l p = l.length - 1 := by
  have hinj := List.inj_on_of_nodup_map hnd
  have hiff : ∀ a ∈ l, (¬ keyLt a p) ↔ a = p := by
    intro a ha
    constructor
    · intro hnlt
      by_contra hne
      have hfst : a.1 ≠ p.1 := fun h => hne (hinj ha hp h)
      rcases keyLt_of_ne hfst with h | h
      · exact hnlt h
      · exact hmax a ha h
    · intro h; exact h ▸ keyLt_irrefl p
  have hsplit := List.length_eq_countP_add_countP (fun a => decide (keyLt a p)) l
  have hcount : l.countP (fun a => ¬ decide (keyLt a p)) = 1 := by
    have hc : l.countP (fun a => ¬ decide (keyLt a p))
        = l.countP (fun a => decide (a = p)) := by
      refine List.countP_congr ?_
      intro a ha
      simp only [decide_eq_true_eq]
      exact hiff a ha
    rw [hc]
    exact countP_eq_one_of_nodup (hnd.of_map Prod.fst) hp
  rw [rank]
  omega

theorem rank_image {l : List (σ × ℚ)} (hnd : (l.map Prod.fst).Nodup) :
    l.toFinset.image (rank l) = Finset.range l.length := by
  have hinj := List.inj_on_of_nodup_map hnd
  have hlnd : l.Nodup := hnd.of_map Prod.fst
  refine Finset.eq_of_subset_of_card_le ?_ ?_
  · intro r hr
    obtain ⟨p, hp, hrank⟩ := Finset.mem_image.mp hr
    rw [List.mem_toFinset] at hp
    exact Finset.mem_range.mpr (hrank ▸ rank_lt_length hp)
  · rw [Finset.card_range, Finset.card_image_of_injOn, List.toFinset_card_of_nodup hlnd]
    intro a ha b hb hab
    rw [Finset.mem_coe, List.mem_toFinset] at ha hb
    by_contra hne
    have hfst : a.1 ≠ b.1 := fun h => hne (hinj ha hb h)
    rcases keyLt_of_ne hfst with h | h
    · exact absurd hab (Nat.ne_of_lt (rank_strict_mono ha h))
    · exact absurd hab.symm (Nat.ne_of_lt (rank_strict_mono hb h))

theorem ratingQ_zero (n : ℕ) : ratingQ n 0 = 1 := by
  simp [ratingQ, round_one]

theorem ratingQ_top {n : ℕ} (hn : 2 ≤ n) : ratingQ n (n - 1) = 99 := by
  have hcast : ((n - 1 : ℕ) : ℚ) = (n : ℚ) - 1 := by
    have : (1 : ℕ) ≤ n := le_trans (by norm_num) hn
    push_cast [this]
    ring
  have hne : ((n : ℚ) - 1) ≠ 0 := by
    have : (2 : ℚ) ≤ (n : ℚ) := by exact_mod_cast hn
    linarith
  rw [ratingQ, hcast, mul_div_assoc, div_self hne]
  norm_num [round_eq]

theorem ratingQ_mono {n : ℕ} (hn : 2 ≤ n) {r₁ r₂ : ℕ} (h : r₁ ≤ r₂) :
    ratingQ n r₁ ≤ ratingQ n r₂ := by
  have hpos : (0 : ℚ) < (n : ℚ) - 1 := by
    have : (2 : ℚ) ≤ (n : ℚ) := by exact_mod_cast hn
    linarith
  have harg : 98 * (r₁ : ℚ) / ((n : ℚ) - 1) ≤ 98 * (r₂ : ℚ) / ((n : ℚ) - 1) := by
    have hr : (r₁ : ℚ) ≤ (r₂ : ℚ) := by exact_mod_cast h
    exact (div_le_div_iff_of_pos_right hpos).mpr (by linarith)
  rw [ratingQ, ratingQ, round_eq, round_eq]
  exact Int.floor_mono (by linarith)

omit [LinearOrder σ] in
theorem qualifying_map_fst (pop : List (σ × Option ℚ)) :
    (qualifying pop).map Prod.fst
      = (pop.filter (fun e => e.2.isSome)).map Prod.fst := by
  induction pop with
  | nil => rfl
  | cons e rest ih =>
    rcases e with ⟨s, oc⟩
    cases oc with
    | none => simpa [qualifying, List.filterMap_cons] using ih
    | some c => simpa [qualifying, List.filterMap_cons] using ih

omit [LinearOrder σ] in
theorem qualifying_nodup {pop : List (σ × Option ℚ)}
    (hnd : (pop.map Prod.fst).Nodup) :
    ((qualifying pop).map Prod.fst).Nodup := by
  rw [qualifying_map_fst]
  exact hnd.sublist ((List.filter_sublist pop).map Prod.fst)

omit [LinearOrder σ] in
theorem qualifying_length (pop : List (σ × Option ℚ)) :
    (qualifying pop).length = pop.countP (fun e => e.2.isSome) := by
  induction pop with
  | nil => rfl
  | cons e rest ih =>
    rcases e with ⟨s, oc⟩
    cases oc with
    | none => simpa [qualifying, List.filterMap_cons, List.countP_cons] using ih
    | some c => simpa [qualifying, List.filterMap_cons, List.countP_cons] using ih

/-- C1: on any date with at least two qualifying symbols and distinct
symbol keys, the cross-sectional ranker assigns each qualifying symbol
the rating `round(1 + 98 * rank / (count - 1))` for its zero-based rank
in the stable ascending (weighted_change, symbol) order; every rating is
in [1,99]; ratings are non-decreasing in weighted_change; a
minimum-scored symbol gets 1 and a maximum-scored symbol gets 99; and
exactly N ratings are assigned, with ranks covering 0..N-1. -/
theorem C1_cross_sectional_ranker (pop : List (σ × Option ℚ))
    (hnd : (pop.map Prod.fst).Nodup)
    (hN : 2 ≤ (qualifying pop).length) :
    rankerSpec pop := by
  have hqnd : ((qualifying pop).map Prod.fst).Nodup := qualifying_nodup hnd
  have hne : qualifying pop ≠ [] := by
    intro h
    rw [h] at hN
    simp at hN
  refine ⟨?_, ?_, ?_, ?_, ?_, ?_, rank_image hqnd⟩
  · intro e he c hc
    rcases e with ⟨s, oc⟩
    simp only at hc
    subst hc
    simp only [ratingOf]
    rw [if_neg (Nat.not_lt.mpr hN)]
  · intro p hp
    have hr : rank (qualifying pop) p < (qualifying pop).length := rank_lt_length hp
    constructor
    · have := ratingQ_mono hN (Nat.zero_le (rank (qualifying pop) p))
      rwa [ratingQ_zero] at this
    · have := ratingQ_mono hN (show rank (qualifying pop) p
        ≤ (qualifying pop).length - 1 by omega)
      rwa [ratingQ_top hN] at this
  · intro p hp q hq hlt
    exact ratingQ_mono hN (le_of_lt (rank_strict_mono hp (Or.inl hlt)))
  · obtain ⟨p, hp, hmin⟩ := exists_keyLt_min (qualifying pop) hne
    refine ⟨p, hp, ?_, ?_⟩
    · intro q hq
      by_contra hlt
      push_neg at hlt
      exact hmin q hq (Or.inl hlt)
    · rw [rank_of_min hmin, ratingQ_zero]
  · obtain ⟨p, hp, hmax⟩ := exists_keyLt_max (qualifying pop) hne
    refine ⟨p, hp, ?_, ?_⟩
    · intro q hq
      by_contra hlt
      push_neg at hlt
      exact hmax q hq (Or.inl hlt)
    · rw [rank_of_max hqnd hp hmax, ratingQ_top hN]
  · rw [qualifying_length]
    refine List.countP_congr ?_
    intro e he
    rcases e with ⟨s, oc⟩
    cases oc with
    | none => simp [ratingOf]
    | some c => simp [ratingOf, Nat.not_lt.mpr hN]

/-- Witness: the ranker specification holds on the Scenario C universe of
three qualifying symbols with weighted changes -5, 0 and 10. -/
theorem C1_cross_sectional_ranker_witness :
    (([((1 : ℕ), some ((-5 : ℚ))), (2, some 0), (3, some 10)].map Prod.fst).Nodup ∧
      2 ≤ (qualifying [((1 : ℕ), some ((-5 : ℚ))), (2, some 0), (3, some 10)]).length) ∧
    rankerSpec [((1 : ℕ), some ((-5 : ℚ))), (2, some 0), (3, some 10)] :=
  ⟨⟨by decide, by decide⟩, C1_cross_sectional_ranker _ (by decide) (by decide)⟩

/-- Scenario C of the spec, evaluated concretely: weighted changes
-5, 0, 10 receive ratings 1, 50, 99. -/
theorem scenarioC_ratings :
    rsRatings [((1 : ℕ), some ((-5 : ℚ))), (2, some 0), (3, some 10)]
      = [(1, some 1), (2, some 50), (3, some 99)] := by
  norm_num [rsRatings, ratingOf, qualifying, rank, ratingQ, keyLt, round_eq,
    List.countP, List.countP.go, List.filterMap_cons, List.filterMap_nil,
    Option.map_some', Option.map_none']

omit [LinearOrder σ] in
theorem qualifying_null_middle (l₁ l₂ : List (σ × Option ℚ)) (s : σ) :
    qualifying (l₁ ++ (s, none) :: l₂) = qualifying (l₁ ++ l₂) := by
  simp [qualifying, List.filterMap_append, List.filterMap_cons]

/-- C4: a null input horizon makes the weighted score null; a symbol
with a null weighted_change gets a null rating, and removing it from
the population changes neither the qualifying set (the percentile
denominator) nor any other symbol's rating. -/
theorem C4_null_exclusion :
    (∀ w3 w6 w9 w12 : ℚ, ∀ c3 c6 c9 c12 : Option ℚ,
        c3 = none ∨ c6 = none ∨ c9 = none ∨ c12 = none →
        weightedChange w3 w6 w9 w12 c3 c6 c9 c12 = none) ∧
    (∀ (pop : List (σ × Option ℚ)) (s : σ), ratingOf pop (s, none) = none) ∧
    (∀ (l₁ l₂ : List (σ × Option ℚ)) (s : σ),
        qualifying (l₁ ++ (s, none) :: l₂) = qualifying (l₁ ++ l₂)) ∧
    (∀ (l₁ l₂ : List (σ × Option ℚ)) (s : σ) (e : σ × Option ℚ),
        ratingOf (l₁ ++ (s, none) :: l₂) e = ratingOf (l₁ ++ l₂) e) := by
  refine ⟨?_, ?_, qualifying_null_middle, ?_⟩
  · intro w3 w6 w9 w12 c3 c6 c9 c12 h
    cases c3 <;> cases c6 <;> cases c9 <;> cases c12 <;>
      first | rfl | simp_all [weightedChange]
  · intro pop s
    rfl
  · intro l₁ l₂ s e
    rcases e with ⟨s', oc⟩
    cases oc with
    | none => rfl
    | some c => simp [ratingOf, qualifying_null_middle]

/-- Witness for C4 on a concrete population: a missing 6-month horizon
nulls the weighted score, the null symbol is unrated, and dropping it
leaves the qualifying set and another symbol's rating unchanged. -/
theorem C4_null_exclusion_witness :
    weightedChange 2 1 1 1 (some 3) none (some 4) (some 5) = none ∧
    ratingOf [((1 : ℕ), some (1 : ℚ)), (2, none), (3, some 2)] (2, none) = none ∧
    qualifying ([((1 : ℕ), some (1 : ℚ))] ++ ((2 : ℕ), (none : Option ℚ)) :: [(3, some 2)])
      = qualifying ([((1 : ℕ), some (1 : ℚ))] ++ [(3, some 2)]) ∧
    ratingOf ([((1 : ℕ), some (1 : ℚ))] ++ ((2 : ℕ), (none : Option ℚ)) :: [(3, some 2)])
        (1, some 1)
      = ratingOf ([((1 : ℕ), some (1 : ℚ))] ++ [(3, some 2)]) (1, some 1) :=
  ⟨(C4_null_exclusion (σ := ℕ)).1 2 1 1 1 (some 3) none (some 4) (some 5)
      (Or.inr (Or.inl rfl)),
    (C4_null_exclusion (σ := ℕ)).2.1 [((1 : ℕ), some (1 : ℚ)), (2, none), (3, some 2)] 2,
    (C4_null_exclusion (σ := ℕ)).2.2.1 [((1 : ℕ), some (1 : ℚ))] [(3, some 2)] 2,
    (C4_null_exclusion (σ := ℕ)).2.2.2 [((1 : ℕ), some (1 : ℚ))] [(3, some 2)] 2 (1, some 1)⟩

/-- C5: on a date with fewer than two qualifying symbols no symbol
receives a numeric rating: `ratingOf` is null for every entry. -/
theorem C5_small_population_all_null (pop : List (σ × Option ℚ))
    (e : σ × Option ℚ) (h : (qualifying pop).length < 2) :
    ratingOf pop e = none := by
  rcases e with ⟨s, oc⟩
  cases oc with
  | none => rfl
  | some c => simp [ratingOf, h]

/-- Witness: a single qualifying symbol receives a null rating. -/
theorem C5_small_population_all_null_witness :
    (qualifying [((1 : ℕ), some (5 : ℚ))]).length < 2 ∧
    ratingOf [((1 : ℕ), some (5 : ℚ))] (1, some 5) = none :=
  ⟨by decide, C5_small_population_all_null _ _ (by decide)⟩

variable {κ α : Type*} [DecidableEq κ]

theorem lookupRow_cons (x : κ × α) (t : List (κ × α)) (k : κ) :
    lookupRow (x :: t) k = if x.1 = k then some x.2 else lookupRow t k := by
  by_cases h : x.1 = k <;> simp [lookupRow, List.find?_cons, h]

theorem lookup_overwrite_ne {t : List (κ × α)} {r : κ × α} {k : κ}
    (hk : k ≠ r.1) :
    lookupRow (t.map fun x => if x.1 = r.1 then r else x) k = lookupRow t k := by
  induction t with
  | nil => rfl
  | cons x xs ih =>
    by_cases hx : x.1 = r.1
    · have hxk : x.1 ≠ k := fun h => hk (by rw [← h]; exact hx)
      simp [lookupRow_cons, hx, Ne.symm hk, hxk, ih]
    · simp only [List.map_cons, if_neg hx, lookupRow_cons]
      by_cases hxk : x.1 = k <;> simp [hxk, ih]

theorem lookup_overwrite_eq (t : List (κ × α)) (r : κ × α) :
    lookupRow (t.map fun x => if x.1 = r.1 then r else x) r.1
      = if t.any (fun x => decide (x.1 = r.1)) then some r.2 else none := by
  induction t with
  | nil => rfl
  | cons x xs ih =>
    by_cases hx : x.1 = r.1
    · simp [lookupRow_cons, hx, List.any_cons]
    · cases hxs : xs.any (fun x => decide (x.1 = r.1)) <;>
        simp [List.map_cons, hx, lookupRow_cons, ih, List.any_cons, hxs]

theorem lookup_append_single (t : List (κ × α)) (r : κ × α) (k : κ) :
    lookupRow (t ++ [r]) k
      = ((lookupRow t k).or (if r.1 = k then some r.2 else none)) := by
  rcases h : t.find? (fun x => decide (x.1 = k)) with _ | x
  · by_cases hr : r.1 = k <;>
      simp [lookupRow, List.find?_append, h, List.find?_cons, hr]
  · simp [lookupRow, List.find?_append, h]

theorem lookup_upsert (t : List (κ × α)) (r : κ × α) (k : κ) :
    lookupRow (upsert t r) k = if k = r.1 then some r.2 else lookupRow t k := by
  by_cases hp : t.any (fun x => decide (x.1 = r.1))
  · rw [upsert, if_pos hp]
    by_cases hk : k = r.1
    · subst hk
      rw [lookup_overwrite_eq, if_pos hp, if_pos rfl]
    · rw [lookup_overwrite_ne hk, if_neg hk]
  · rw [upsert, if_neg hp, lookup_append_single]
    by_cases hk : k = r.1
    · have hfind : t.find? (fun x => decide (x.1 = k)) = none := by
        refine List.find?_eq_none.mpr ?_
        intro x hx
        simp only [decide_eq_true_eq]
        intro he
        exact hp (List.any_eq_true.mpr ⟨x, hx, by simp [he, hk]⟩)
      have hnone : lookupRow t k = none := by
        rw [lookupRow, hfind]
        rfl
      rw [hk] at hnone
      simp [hnone, hk]
    · have hr : ¬ r.1 = k := fun h => hk h.symm
      simp [hr, hk]

theorem lookup_upsertAll (t : List (κ × α)) (rs : List (κ × α)) (k : κ) :
    lookupRow (upsertAll t rs) k
      = match lastVal k rs with
        | some v => some v
        | none => lookupRow t k := by
  induction rs generalizing t with
  | nil => rfl
  | cons r rs ih =>
    show lookupRow (upsertAll (upsert t r) rs) k = _
    rw [ih]
    rcases h : lastVal k rs with _ | v
    · simp only [h, lastVal, lookup_upsert]
      by_cases hk : r.1 = k
      · subst hk
        simp
      · have hk2 : ¬ k = r.1 := fun he => hk he.symm
        simp [hk, hk2]
    · simp [lastVal, h]

theorem keys_upsert_mem {t : List (κ × α)} {r : κ × α}
    (h : r.1 ∈ t.map Prod.fst) :
    (upsert t r).map Prod.fst = t.map Prod.fst := by
  obtain ⟨x, hx, hfst⟩ := List.mem_map.mp h
  have hany : t.any (fun x => decide (x.1 = r.1)) := by
    exact List.any_eq_true.mpr ⟨x, hx, by simp [hfst]⟩
  rw [upsert, if_pos hany, List.map_map]
  refine List.map_congr_left ?_
  intro a ha
  by_cases har : a.1 = r.1 <;> simp [har]

theorem keys_upsert_not_mem {t : List (κ × α)} {r : κ × α}
    (h : r.1 ∉ t.map Prod.fst) :
    (upsert t r).map Prod.fst = t.map Prod.fst ++ [r.1] := by
  have hany : ¬ t.any (fun x => decide (x.1 = r.1)) := by
    intro hc
    obtain ⟨x, hx, he⟩ := List.any_eq_true.mp hc
    simp only [decide_eq_true_eq] at he
    exact h (List.mem_map.mpr ⟨x, hx, he⟩)
  rw [upsert, if_neg hany, List.map_append]
  rfl

theorem nodup_keys_upsert {t : List (κ × α)} {r : κ × α}
    (hnd : (t.map Prod.fst).Nodup) :
    ((upsert t r).map Prod.fst).Nodup := by
  by_cases h : r.1 ∈ t.map Prod.fst
  · rwa [keys_upsert_mem h]
  · rw [keys_upsert_not_mem h]
    simp [List.nodup_append, hnd, h]

theorem nodup_keys_upsertAll {t : List (κ × α)} (rs : List (κ × α))
    (hnd : (t.map Prod.fst).Nodup) :
    ((upsertAll t rs).map Prod.fst).Nodup := by
  induction rs generalizing t with
  | nil => exact hnd
  | cons r rs ih => exact ih (nodup_keys_upsert hnd)

theorem lastVal_of_mem {rs : List (κ × α)} {r : κ × α} (h : r ∈ rs) :
    ∃ v, lastVal r.1 rs = some v := by
  induction rs with
  | nil => cases h
  | cons x xs ih =>
    rcases List.mem_cons.mp h with h | h
    · subst h
      rcases he : lastVal r.1 xs with _ | v
      · exact ⟨r.2, by simp [lastVal, he]⟩
      · exact ⟨v, by simp [lastVal, he]⟩
    · obtain ⟨v, hv⟩ := ih h
      exact ⟨v, by simp [lastVal, hv]⟩

theorem mem_keys_of_lookup {t : List (κ × α)} {k : κ} {v : α}
    (h : lookupRow t k = some v) : k ∈ t.map Prod.fst := by
  rw [lookupRow] at h
  rcases hf : t.find? (fun x => decide (x.1 = k)) with _ | x
  · rw [hf] at h
    cases h
  · have hx := List.find?_some hf
    simp only [decide_eq_true_eq] at hx
    exact hx ▸ List.mem_map.mpr ⟨x, List.mem_of_find?_eq_some hf, rfl⟩

theorem keys_upsertAll_of_mem {t : List (κ × α)} {rs : List (κ × α)}
    (h : ∀ r ∈ rs, r.1 ∈ t.map Prod.fst) :
    (upsertAll t rs).map Prod.fst = t.map Prod.fst := by
  induction rs generalizing t with
  | nil => rfl
  | cons r rs ih =>
    show (upsertAll (upsert t r) rs).map Prod.fst = _
    have hkeys : (upsert t r).map Prod.fst = t.map Prod.fst :=
      keys_upsert_mem (h r (List.mem_cons_self r rs))
    rw [ih, hkeys]
    intro x hx
    rw [hkeys]
    exact h x (List.mem_cons_of_mem r hx)

/-- C2: running the batched upsert twice with the same records is
idempotent: keys stay unique (one row per (symbol, calculation_date)),
the second run leaves every key's row and the table's key sequence
unchanged, a written key's row carries exactly the batch's last record
for it (full replacement, no stale-column merge), and unwritten keys
keep their previous rows. -/
theorem C2_upsert_idempotent (t rs : List (κ × α))
    (hnd : (t.map Prod.fst).Nodup) :
    ((upsertAll t rs).map Prod.fst).Nodup ∧
    (∀ k, lookupRow (upsertAll (upsertAll t rs) rs) k
        = lookupRow (upsertAll t rs) k) ∧
    ((upsertAll (upsertAll t rs) rs).map Prod.fst
        = (upsertAll t rs).map Prod.fst) ∧
    (∀ k v, lastVal k rs = some v → lookupRow (upsertAll t rs) k = some v) ∧
    (∀ k, lastVal k rs = none → lookupRow (upsertAll t rs) k = lookupRow t k) := by
  refine ⟨nodup_keys_upsertAll rs hnd, ?_, ?_, ?_, ?_⟩
  · intro k
    rw [lookup_upsertAll, lookup_upsertAll]
    rcases h : lastVal k rs with _ | v <;> simp [h]
  · refine keys_upsertAll_of_mem ?_
    intro r hr
    obtain ⟨v, hv⟩ := lastVal_of_mem hr
    refine mem_keys_of_lookup (v := v) ?_
    rw [lookup_upsertAll, hv]
  · intro k v hv
    rw [lookup_upsertAll, hv]
  · intro k hk
    rw [lookup_upsertAll, hk]

/-- Witness: a concrete two-row table and a three-record batch (with a
duplicate key inside the batch) satisfy the idempotent-upsert
specification. -/
theorem C2_upsert_idempotent_witness :
    (([((1 : ℕ), (10 : ℕ)), (2, 20)].map Prod.fst).Nodup) ∧
    (((upsertAll [((1 : ℕ), (10 : ℕ)), (2, 20)] [(2, 21), (3, 30), (2, 22)]).map
        Prod.fst).Nodup ∧
      (∀ k, lookupRow (upsertAll (upsertAll [((1 : ℕ), (10 : ℕ)), (2, 20)]
          [(2, 21), (3, 30), (2, 22)]) [(2, 21), (3, 30), (2, 22)]) k
        = lookupRow (upsertAll [((1 : ℕ), (10 : ℕ)), (2, 20)]
          [(2, 21), (3, 30), (2, 22)]) k) ∧
      ((upsertAll (upsertAll [((1 : ℕ), (10 : ℕ)), (2, 20)]
          [(2, 21), (3, 30), (2, 22)]) [(2, 21), (3, 30), (2, 22)]).map Prod.fst
        = (upsertAll [((1 : ℕ), (10 : ℕ)), (2, 20)]
          [(2, 21), (3, 30), (2, 22)]).map Prod.fst) ∧
      (∀ k v, lastVal k [(2, 21), (3, 30), (2, 22)] = some v →
        lookupRow (upsertAll [((1 : ℕ), (10 : ℕ)), (2, 20)]
          [(2, 21), (3, 30), (2, 22)]) k = some v) ∧
      (∀ k, lastVal k [(2, 21), (3, 30), (2, 22)] = none →
        lookupRow (upsertAll [((1 : ℕ), (10 : ℕ)), (2, 20)]
          [(2, 21), (3, 30), (2, 22)]) k
          = lookupRow [((1 : ℕ), (10 : ℕ)), (2, 20)] k)) :=
  ⟨by decide, C2_upsert_idempotent _ _ (by decide)⟩

theorem mem_of_getLast?_some {β : Type*} {l : List β} {a : β}
    (h : l.getLast? = some a) : a ∈ l := by
  obtain ⟨hne, he⟩ := List.mem_getLast?_eq_getLast (Option.mem_def.mpr h)
  exact he ▸ List.getLast_mem hne

theorem getLast?_time_max :
    ∀ (l : List PriceBar), l.Pairwise (fun a b => a.t < b.t) →
      ∀ {b : PriceBar}, l.getLast? = some b → ∀ x ∈ l, x.t ≤ b.t := by
  intro l
  induction l with
  | nil =>
    intro _ b h
    cases h
  | cons a l ih =>
    intro hsort b h x hx
    cases l with
    | nil =>
      have hab : a = b := by
        simpa using h
      rcases List.mem_singleton.mp hx with rfl
      exact le_of_eq (congrArg PriceBar.t hab)
    | cons c l' =>
      rw [List.getLast?_cons_cons] at h
      have hpair := List.pairwise_cons.mp hsort
      have hmem : b ∈ c :: l' := mem_of_getLast?_some h
      rcases List.mem_cons.mp hx with rfl | hx
      · exact le_of_lt (hpair.1 b hmem)
      · exact ih hpair.2 h x hx

theorem barOnOrBefore_none_iff (bars : List PriceBar) (d : ℤ) :
    barOnOrBefore bars d = none ↔ ∀ b ∈ bars, d < b.t := by
  rw [barOnOrBefore, List.getLast?_eq_none_iff, List.filter_eq_nil_iff]
  constructor
  · intro h b hb
    have hbd := h b hb
    simp only [decide_eq_true_eq] at hbd
    exact not_le.mp hbd
  · intro h b hb
    simp only [decide_eq_true_eq]
    exact not_le.mpr (h b hb)

theorem barOnOrBefore_some {bars : List PriceBar} {d : ℤ}
    (hsort : bars.Pairwise (fun a b => a.t < b.t)) {b : PriceBar}
    (h : barOnOrBefore bars d = some b) :
    b ∈ bars ∧ b.t ≤ d ∧ ∀ x ∈ bars, x.t ≤ d → x.t ≤ b.t := by
  have hmem := mem_of_getLast?_some h
  have hmem' := List.mem_filter.mp hmem
  have hble : b.t ≤ d := by simpa using hmem'.2
  refine ⟨hmem'.1, hble, ?_⟩
  intro x hx hxd
  have hxf : x ∈ bars.filter (fun b => decide (b.t ≤ d)) :=
    List.mem_filter.mpr ⟨hx, by simpa using hxd⟩
  exact getLast?_time_max _ (hsort.filter _) h x hxf

theorem barOnOrBefore_ne_none {bars : List PriceBar} {d : ℤ} {b : PriceBar}
    (hb : b ∈ bars) (hbd : b.t ≤ d) : barOnOrBefore bars d ≠ none := by
  rw [Ne, barOnOrBefore_none_iff]
  intro h
  exact absurd hbd (not_le.mpr (h b hb))

/-- C3: on a chronologically ordered bar series and a non-negative
lookback, the horizon return is null exactly when no bar exists at or
before `asOf - lookback` or the reference close is zero; otherwise it
equals `(close_now - close_then) / close_then * 100` for the closes on
or immediately before the two dates. -/
theorem C3_horizon_return (bars : List PriceBar) (asOf lookback : ℤ)
    (hsort : bars.Pairwise (fun a b => a.t < b.t)) (hlb : 0 ≤ lookback) :
    horizonSpec bars asOf lookback := by
  refine ⟨?_, ?_, barOnOrBefore_none_iff bars _,
    fun b hb => barOnOrBefore_some hsort hb⟩
  · constructor
    · intro hnone
      rcases hThen : barOnOrBefore bars (asOf - lookback) with _ | bThen
      · exact Or.inl rfl
      · obtain ⟨hmem, hle, _⟩ := barOnOrBefore_some hsort hThen
        have hleAsOf : bThen.t ≤ asOf := le_trans hle (by omega)
        rcases hNow : barOnOrBefore bars asOf with _ | bNow
        · exact absurd hNow (barOnOrBefore_ne_none hmem hleAsOf)
        · simp only [horizonReturn, hThen, hNow] at hnone
          by_cases hz : bThen.close = 0
          · exact Or.inr ⟨bThen, rfl, hz⟩
          · rw [if_neg hz] at hnone
            cases hnone
    · intro h
      rcases h with h | ⟨b, hb, hz⟩
      · simp [horizonReturn, h]
      · rcases hNow : barOnOrBefore bars asOf with _ | bNow <;>
          simp [horizonReturn, hb, hNow, hz]
  · intro bThen bNow hThen hNow hz
    simp only [horizonReturn, hThen, hNow]
    rw [if_neg hz]

/-- Witness: Scenario A shape, two bars with closes 100 then 110 ninety
days apart; the 90-day return as of the later bar is defined and the
reference bar is the earlier close. -/
theorem C3_horizon_return_witness :
    ([⟨0, 100⟩, ⟨90, 110⟩] : List PriceBar).Pairwise (fun a b => a.t < b.t) ∧
    (0 : ℤ) ≤ 90 ∧
    horizonSpec [⟨0, 100⟩, ⟨90, 110⟩] 90 90 :=
  ⟨by decide, by decide, C3_horizon_return _ 90 90 (by decide) (by decide)⟩

/-- C6: calculateSMA yields no points when fewer than `period` bars
exist, exactly `L - period + 1` points otherwise, and the k-th point is
the arithmetic mean of the `period` trailing source values ending at
bar `k + period - 1`. -/
theorem C6_calculateSMA (data : List (ℤ × ℚ)) (period : ℕ)
    (_hp : 0 < period) : smaSpec data period := by
  refine ⟨?_, ?_, ?_⟩
  · intro h
    rw [calculateSMA, if_pos h]
  · intro h
    rw [calculateSMA, if_neg (Nat.not_lt.mpr h), List.length_map,
      List.length_range]
  · intro k hk h
    constructor
    · rw [calculateSMA, if_neg (Nat.not_lt.mpr h), List.getElem?_map,
        List.getElem?_range hk]
      rfl
    · rw [List.length_take, List.length_drop]
      exact Nat.min_eq_left (by omega)

/-- Witness: SMA with period 2 over three bars valued 1, 3, 5. -/
theorem C6_calculateSMA_witness :
    0 < 2 ∧ smaSpec [((0 : ℤ), (1 : ℚ)), (1, 3), (2, 5)] 2 :=
  ⟨by decide, C6_calculateSMA _ 2 (by decide)⟩

theorem emaFrom_length (mult : ℚ) :
    ∀ (rest : List (ℤ × ℚ)) (e : ℚ), (emaFrom mult e rest).length = rest.length := by
  intro rest
  induction rest with
  | nil => intro e; rfl
  | cons p ps ih => intro e; simp [emaFrom, ih]

theorem emaFrom_succ (mult : ℚ) :
    ∀ (rest : List (ℤ × ℚ)) (e : ℚ) (k : ℕ) (v w : ℤ × ℚ),
      (emaFrom mult e rest)[k]? = some v →
      (emaFrom mult e rest)[k + 1]? = some w →
      ∃ p, rest[k + 1]? = some p ∧ w = (p.1, (p.2 - v.2) * mult + v.2) := by
  intro rest
  induction rest with
  | nil =>
    intro e k v w hv _
    simp [emaFrom] at hv
  | cons p ps ih =>
    intro e k v w hv hw
    rw [show emaFrom mult e (p :: ps)
        = (p.1, (p.2 - e) * mult + e)
          :: emaFrom mult ((p.2 - e) * mult + e) ps from rfl] at hv hw
    cases k with
    | zero =>
      rw [List.getElem?_cons_zero] at hv
      rw [List.getElem?_cons_succ] at hw
      injection hv with hv
      cases ps with
      | nil => simp [emaFrom] at hw
      | cons q qs =>
        rw [show emaFrom mult ((p.2 - e) * mult + e) (q :: qs)
            = (q.1, (q.2 - ((p.2 - e) * mult + e)) * mult + ((p.2 - e) * mult + e))
              :: emaFrom mult
                ((q.2 - ((p.2 - e) * mult + e)) * mult + ((p.2 - e) * mult + e))
                qs from rfl, List.getElem?_cons_zero] at hw
        injection hw with hw
        refine ⟨q, by rw [List.getElem?_cons_succ, List.getElem?_cons_zero], ?_⟩
        rw [← hw, ← hv]
    | succ k' =>
      rw [List.getElem?_cons_succ] at hv hw
      obtain ⟨q, hq, hw'⟩ := ih _ k' v w hv hw
      refine ⟨q, ?_, hw'⟩
      rw [List.getElem?_cons_succ]
      exact hq

/-- C9: calculateEMA is empty on a series shorter than `period`,
otherwise has exactly `L - period + 1` points, starts with the seed SMA
at bar `period - 1`, and each subsequent point follows the EMA
recurrence with multiplier `2 / (period + 1)` at the next bar. -/
theorem C9_calculateEMA (data : List (ℤ × ℚ)) (period : ℕ)
    (_hp : 0 < period) : emaSpec data period := by
  refine ⟨?_, ?_, ?_, ?_⟩
  · intro h
    rw [calculateEMA, if_pos h]
  · intro h
    rw [calculateEMA, if_neg (Nat.not_lt.mpr h)]
    rw [List.length_cons, emaFrom_length, List.length_drop]
  · intro h
    rw [calculateEMA, if_neg (Nat.not_lt.mpr h)]
    rfl
  · intro k v w hv hw
    by_cases h : data.length < period
    · rw [calculateEMA, if_pos h] at hv
      simp at hv
    · rw [calculateEMA, if_neg h] at hv hw
      cases k with
      | zero =>
        rw [List.getElem?_cons_zero] at hv
        rw [List.getElem?_cons_succ] at hw
        injection hv with hv
        cases hrest : data.drop period with
        | nil =>
          rw [hrest] at hw
          simp [emaFrom] at hw
        | cons q qs =>
          rw [hrest] at hw
          rw [show emaFrom (2 / ((period : ℚ) + 1)) (smaSeed data period) (q :: qs)
              = (q.1, (q.2 - smaSeed data period) * (2 / ((period : ℚ) + 1))
                  + smaSeed data period)
                :: emaFrom (2 / ((period : ℚ) + 1))
                  ((q.2 - smaSeed data period) * (2 / ((period : ℚ) + 1))
                    + smaSeed data period) qs from rfl,
            List.getElem?_cons_zero] at hw
          injection hw with hw
          refine ⟨q, ?_, ?_⟩
          · have hq : (data.drop period)[0]? = some q := by
              rw [hrest, List.getElem?_cons_zero]
            rw [List.getElem?_drop] at hq
            simpa using hq
          · rw [← hw, ← hv]
      | succ k' =>
        rw [List.getElem?_cons_succ] at hv hw
        obtain ⟨q, hq, hw'⟩ := emaFrom_succ _ _ _ _ _ _ hv hw
        rw [List.getElem?_drop] at hq
        exact ⟨q, hq, hw'⟩

/-- Witness: EMA with period 2 over three bars valued 1, 3, 5. -/
theorem C9_calculateEMA_witness :
    0 < 2 ∧ emaSpec [((0 : ℤ), (1 : ℚ)), (1, 3), (2, 5)] 2 :=
  ⟨by decide, C9_calculateEMA _ 2 (by decide)⟩

theorem chunk_flatten {β : Type*} (bs : ℕ) :
    ∀ (l : List β), (chunk bs l).flatten = l := by
  have H : ∀ (n : ℕ) (l : List β), l.length ≤ n → (chunk bs l).flatten = l := by
    intro n
    induction n with
    | zero =>
      intro l hl
      have hnil : l = [] := List.length_eq_zero.mp (Nat.le_zero.mp hl)
      subst hnil
      simp [chunk]
    | succ n ih =>
      intro l hl
      cases l with
      | nil => simp [chunk]
      | cons x xs =>
        simp only [List.length_cons] at hl
        simp only [chunk, List.flatten_cons]
        rw [ih (xs.drop (bs - 1)) (by simp only [List.length_drop]; omega)]
        rw [List.cons_append, List.take_append_drop]
  intro l
  exact H l.length l le_rfl

theorem chunk_bounded {β : Type*} (bs : ℕ) (hbs : 0 < bs) :
    ∀ (l : List β), ∀ c ∈ chunk bs l, c.length ≤ bs ∧ c ≠ [] := by
  have H : ∀ (n : ℕ) (l : List β), l.length ≤ n →
      ∀ c ∈ chunk bs l, c.length ≤ bs ∧ c ≠ [] := by
    intro n
    induction n with
    | zero =>
      intro l hl c hc
      have hnil : l = [] := List.length_eq_zero.mp (Nat.le_zero.mp hl)
      subst hnil
      simp [chunk] at hc
    | succ n ih =>
      intro l hl c hc
      cases l with
      | nil => simp [chunk] at hc
      | cons x xs =>
        simp only [List.length_cons] at hl
        simp only [chunk] at hc
        rcases List.mem_cons.mp hc with rfl | hc
        · constructor
          · simp only [List.length_cons, List.length_take]
            omega
          · exact List.cons_ne_nil x _
        · exact ih (xs.drop (bs - 1)) (by simp only [List.length_drop]; omega) c hc
  intro l
  exact H l.length l le_rfl

theorem chunk_eq_nil_iff {β : Type*} (bs : ℕ) (l : List β) :
    chunk bs l = [] ↔ l = [] := by
  cases l <;> simp [chunk]

theorem length_le_sum_of_all_pos : ∀ (L : List ℕ), (∀ a ∈ L, 1 ≤ a) →
    L.length ≤ L.sum := by
  intro L
  induction L with
  | nil => intro _; simp
  | cons a L ih =>
    intro h
    have ha := h a (List.mem_cons_self a L)
    have hL := ih (fun b hb => h b (List.mem_cons_of_mem a hb))
    simp only [List.length_cons, List.sum_cons]
    omega

/-- C7: with a positive batch size, the writer's partition has every
batch of size at most `bs` and nonempty, the batches together are
exactly the record list, more than one batch is used as soon as the
universe exceeds one batch, and (for `bs ≥ 2`) strictly fewer
statements than symbols are issued.  The default batch size is 500. -/
theorem C7_batched_writes {β : Type*} (bs : ℕ) (l : List β) (hbs : 0 < bs) :
    (∀ c ∈ chunk bs l, c.length ≤ bs ∧ c ≠ []) ∧
    (chunk bs l).flatten = l ∧
    (bs < l.length → 2 ≤ (chunk bs l).length) ∧
    (2 ≤ bs → 2 ≤ l.length → (chunk bs l).length < l.length) := by
  refine ⟨chunk_bounded bs hbs l, chunk_flatten bs l, ?_, ?_⟩
  · intro h
    cases l with
    | nil => simp at h
    | cons x xs =>
      simp only [chunk, List.length_cons]
      have hrest : xs.drop (bs - 1) ≠ [] := by
        intro hnil
        have := congrArg List.length hnil
        simp only [List.length_drop, List.length_nil] at this
        simp only [List.length_cons] at h
        omega
      have : chunk bs (xs.drop (bs - 1)) ≠ [] := by
        intro hc
        exact hrest ((chunk_eq_nil_iff bs _).mp hc)
      have : 1 ≤ (chunk bs (xs.drop (bs - 1))).length :=
        Nat.one_le_iff_ne_zero.mpr (fun hz => this (List.length_eq_zero.mp hz))
      omega
  · intro hbs2 hl2
    cases l with
    | nil => simp at hl2
    | cons x xs =>
      have hxs : 1 ≤ xs.length := by
        simp only [List.length_cons] at hl2
        omega
      have hsum : ((chunk bs (x :: xs)).map List.length).sum = (x :: xs).length := by
        rw [← List.length_flatten, chunk_flatten]
      have hhead : 1 ≤ min (bs - 1) xs.length := Nat.le_min.mpr ⟨by omega, hxs⟩
      have htail : (chunk bs (xs.drop (bs - 1))).length
          ≤ ((chunk bs (xs.drop (bs - 1))).map List.length).sum := by
        have hall : ∀ a ∈ (chunk bs (xs.drop (bs - 1))).map List.length, 1 ≤ a := by
          intro a ha
          obtain ⟨c, hc, rfl⟩ := List.mem_map.mp ha
          exact List.length_pos.mpr (chunk_bounded bs hbs _ c hc).2
        have hls := length_le_sum_of_all_pos _ hall
        rwa [List.length_map] at hls
      simp only [chunk, List.map_cons, List.sum_cons, List.length_cons,
        List.length_take] at hsum ⊢
      omega

/-- Witness: the default batch size 500 is positive; the batching
specification holds for a thousand-record universe. -/
theorem C7_batched_writes_witness :
    0 < defaultBatchSize ∧
    ((∀ c ∈ chunk defaultBatchSize (List.range 1000), c.length ≤ defaultBatchSize ∧ c ≠ []) ∧
      (chunk defaultBatchSize (List.range 1000)).flatten = List.range 1000 ∧
      (defaultBatchSize < (List.range 1000).length →
        2 ≤ (chunk defaultBatchSize (List.range 1000)).length) ∧
      (2 ≤ defaultBatchSize → 2 ≤ (List.range 1000).length →
        (chunk defaultBatchSize (List.range 1000)).length < (List.range 1000).length)) :=
  ⟨by decide, C7_batched_writes defaultBatchSize (List.range 1000) (by decide)⟩

theorem step_phase {nb : ℕ} {s t : OState} (h : step nb s t = true) :
    phase nb s < phase nb t := by
  cases s <;> cases t <;> simp [step, phase] at h ⊢ <;> omega

theorem step_ranking_inv {nb : ℕ} {s : OState}
    (h : step nb s OState.ranking = true) : s = OState.computing nb := by
  cases s <;> simp [step] at h
  exact congrArg OState.computing h

theorem step_persisting_inv {nb : ℕ} {s : OState}
    (h : step nb s OState.persisting = true) : s = OState.ranking := by
  cases s with
  | ranking => rfl
  | idle => simp [step] at h
  | resolving => simp [step] at h
  | computing k => simp [step] at h
  | persisting => simp [step] at h
  | finished => simp [step] at h
  | failed => simp [step] at h

theorem chain_phase {nb : ℕ} {tr : List OState}
    (h : tr.Chain' (fun s t => step nb s t = true)) :
    (tr.map (phase nb)).Chain' (· < ·) := by
  rw [List.chain'_map]
  exact h.imp (fun a b hab => step_phase hab)

/-- C8: along any lawful orchestrator trace that starts in Idle, every
entry into Ranking is immediately preceded by the completed-computation
state `computing nb` (the synchronization barrier), no state — in
particular Ranking — occurs more than once, and Persisting is only ever
entered from Ranking. -/
theorem C8_ranking_barrier (nb : ℕ) (tr : List OState)
    (hchain : tr.Chain' (fun s t => step nb s t = true))
    (hhead : tr.head? = some OState.idle) :
    (∀ i (hi : i < tr.length), tr.get ⟨i, hi⟩ = OState.ranking →
      ∃ j, ∃ hj : j < tr.length, j + 1 = i ∧
        tr.get ⟨j, hj⟩ = OState.computing nb) ∧
    (∀ s : OState, tr.count s ≤ 1) ∧
    (∀ i (hi : i < tr.length), tr.get ⟨i, hi⟩ = OState.persisting →
      ∃ j, ∃ hj : j < tr.length, j + 1 = i ∧ tr.get ⟨j, hj⟩ = OState.ranking) := by
  have hget := List.chain'_iff_get.mp hchain
  have hzero : ∀ (h0 : 0 < tr.length), tr.get ⟨0, h0⟩ = OState.idle := by
    intro h0
    cases tr with
    | nil => cases h0
    | cons a rest =>
      simp only [List.head?_cons, Option.some.injEq] at hhead
      show a = OState.idle
      exact hhead
  refine ⟨?_, ?_, ?_⟩
  · intro i hi hr
    cases i with
    | zero =>
      rw [hzero hi] at hr
      cases hr
    | succ j =>
      have hj : j < tr.length := by omega
      have hstep := hget j (by omega)
      rw [hr] at hstep
      exact ⟨j, hj, rfl, step_ranking_inv hstep⟩
  · intro s
    by_contra hc
    push_neg at hc
    have hdup : tr.Duplicate s := List.duplicate_iff_two_le_count.mpr hc
    have hsub : List.Sublist [s, s] tr := List.duplicate_iff_sublist.mp hdup
    have hmapsub : List.Sublist [phase nb s, phase nb s] (tr.map (phase nb)) := by
      simpa using hsub.map (phase nb)
    have hpair : (tr.map (phase nb)).Pairwise (· < ·) :=
      List.chain'_iff_pairwise.mp (chain_phase hchain)
    have : phase nb s < phase nb s := by
      have hp := hpair.sublist hmapsub
      exact List.rel_of_pairwise_cons hp (List.mem_singleton.mpr rfl)
    exact absurd this (lt_irrefl _)
  · intro i hi hr
    cases i with
    | zero =>
      rw [hzero hi] at hr
      cases hr
    | succ j =>
      have hj : j < tr.length := by omega
      have hstep := hget j (by omega)
      rw [hr] at hstep
      exact ⟨j, hj, rfl, step_persisting_inv hstep⟩

/-- Witness: the canonical one-batch run
Idle → Resolving → computing 0 → computing 1 → Ranking → Persisting →
Done satisfies the barrier specification. -/
theorem C8_ranking_barrier_witness :
    ([OState.idle, OState.resolving, OState.computing 0, OState.computing 1,
        OState.ranking, OState.persisting, OState.finished].Chain'
      (fun s t => step 1 s t = true) ∧
      [OState.idle, OState.resolving, OState.computing 0, OState.computing 1,
        OState.ranking, OState.persisting, OState.finished].head?
        = some OState.idle) ∧
    ((∀ i (hi : i < ([OState.idle, OState.resolving, OState.computing 0,
          OState.computing 1, OState.ranking, OState.persisting,
          OState.finished] : List OState).length),
        ([OState.idle, OState.resolving, OState.computing 0, OState.computing 1,
          OState.ranking, OState.persisting, OState.finished] : List OState).get
            ⟨i, hi⟩ = OState.ranking →
        ∃ j, ∃ hj : j < ([OState.idle, OState.resolving, OState.computing 0,
            OState.computing 1, OState.ranking, OState.persisting,
            OState.finished] : List OState).length, j + 1 = i ∧
          ([OState.idle, OState.resolving, OState.computing 0, OState.computing 1,
            OState.ranking, OState.persisting, OState.finished] : List OState).get
              ⟨j, hj⟩ = OState.computing 1) ∧
      (∀ s : OState,
        ([OState.idle, OState.resolving, OState.computing 0, OState.computing 1,
          OState.ranking, OState.persisting,
          OState.finished] : List OState).count s ≤ 1) ∧
      (∀ i (hi : i < ([OState.idle, OState.resolving, OState.computing 0,
          OState.computing 1, OState.ranking, OState.persisting,
          OState.finished] : List OState).length),
        ([OState.idle, OState.resolving, OState.computing 0, OState.computing 1,
          OState.ranking, OState.persisting, OState.finished] : List OState).get
            ⟨i, hi⟩ = OState.persisting →
        ∃ j, ∃ hj : j < ([OState.idle, OState.resolving, OState.computing 0,
            OState.computing 1, OState.ranking, OState.persisting,
            OState.finished] : List OState).length, j + 1 = i ∧
          ([OState.idle, OState.resolving, OState.computing 0, OState.computing 1,
            OState.ranking, OState.persisting, OState.finished] : List OState).get
              ⟨j, hj⟩ = OState.ranking)) :=
  ⟨⟨by
      simp only [List.chain'_cons, List.chain'_singleton, and_true]
      decide, by decide⟩,
    C8_ranking_barrier 1 _
      (by
        simp only [List.chain'_cons, List.chain'_singleton, and_true]
        decide)
      (by decide)⟩

theorem updateFirst_length {β : Type*} (p : β → Bool) (f : β → β) :
    ∀ l : List β, (updateFirst p f l).length = l.length := by
  intro l
  induction l with
  | nil => rfl
  | cons x xs ih =>
    by_cases hx : p x <;> simp [updateFirst, hx, ih]

theorem updateFirst_append {β : Type*} (p : β → Bool) (f : β → β) :
    ∀ (pre : List β) (t : β) (post : List β), (∀ u ∈ pre, p u = false) →
      p t = true → updateFirst p f (pre ++ t :: post) = pre ++ f t :: post := by
  intro pre
  induction pre with
  | nil =>
    intro t post _ ht
    simp [updateFirst, ht]
  | cons u pre ih =>
    intro t post hpre ht
    have hu : p u = false := hpre u (List.mem_cons_self u pre)
    rw [List.cons_append, updateFirst]
    rw [if_neg (by simp [hu]),
      ih t post (fun v hv => hpre v (List.mem_cons_of_mem u hv)) ht]
    rfl

theorem sortByCreated_head_min {ι : Type*} (ts : List (Template ι))
    (hne : ts ≠ []) :
    ∃ ev, (sortByCreated ts).head? = some ev ∧ ev ∈ ts ∧
      ∀ u ∈ ts, ev.created ≤ u.created := by
  have hperm : List.Perm (sortByCreated ts) ts := List.perm_insertionSort _ ts
  have hsorted : List.Sorted (fun a b : Template ι => a.created ≤ b.created)
      (sortByCreated ts) := List.sorted_insertionSort _ ts
  cases hs : sortByCreated ts with
  | nil =>
    rw [hs] at hperm
    exact absurd (List.Perm.eq_nil hperm.symm) hne
  | cons ev rest =>
    rw [hs] at hperm hsorted
    refine ⟨ev, rfl, ?_, ?_⟩
    · exact hperm.subset (List.mem_cons_self ev rest)
    · intro u hu
      rcases List.mem_cons.mp (hperm.symm.subset hu) with rfl | hu'
      · exact le_refl _
      · exact (List.sorted_cons.mp hsorted).1 u hu'

/-- C10: saving under an existing name overwrites that template in
place keeping its id and createdAt with the count unchanged; saving a
new name into a full store first evicts a template of oldest createdAt;
and the store never grows beyond `maxTemplates` (50), so getTemplates
never returns more. -/
theorem C10_saveTemplate {ι : Type*} (now nm : ℕ) (inds : ι) :
    (∀ (pre post : List (Template ι)) (t : Template ι),
      (∀ u ∈ pre, u.name ≠ nm) → t.name = nm →
      saveTemplate now nm inds (pre ++ t :: post)
        = pre ++ (⟨t.tid, nm, inds, t.created, now⟩ : Template ι) :: post) ∧
    (∀ ts : List (Template ι), (ts.any fun t => decide (t.name = nm)) →
      (saveTemplate now nm inds ts).length = ts.length) ∧
    (∀ ts : List (Template ι), ¬ (ts.any fun t => decide (t.name = nm)) →
      maxTemplates ≤ ts.length →
      saveTemplate now nm inds ts
          = (sortByCreated ts).tail ++ [⟨now, nm, inds, now, now⟩] ∧
        ∃ ev, (sortByCreated ts).head? = some ev ∧ ev ∈ ts ∧
          ∀ u ∈ ts, ev.created ≤ u.created) ∧
    (∀ ts : List (Template ι), ts.length ≤ maxTemplates →
      (saveTemplate now nm inds ts).length ≤ maxTemplates) := by
  refine ⟨?_, ?_, ?_, ?_⟩
  · intro pre post t hpre ht
    have hany : ((pre ++ t :: post).any fun u => decide (u.name = nm)) = true :=
      List.any_eq_true.mpr ⟨t, by simp, by simp [ht]⟩
    rw [saveTemplate, if_pos hany]
    exact updateFirst_append _ _ pre t post
      (fun u hu => decide_eq_false (hpre u hu)) (decide_eq_true ht)
  · intro ts hany
    rw [saveTemplate, if_pos hany]
    exact updateFirst_length _ _ ts
  · intro ts hany hlen
    have hne : ts ≠ [] := by
      intro h
      rw [h] at hlen
      simp [maxTemplates] at hlen
    exact ⟨by rw [saveTemplate, if_neg hany, if_pos hlen],
      sortByCreated_head_min ts hne⟩
  · intro ts hlen
    by_cases hany : (ts.any fun t => decide (t.name = nm)) = true
    · rw [saveTemplate, if_pos hany, updateFirst_length]
      exact hlen
    · by_cases hfull : maxTemplates ≤ ts.length
      · rw [saveTemplate, if_neg hany, if_pos hfull, List.length_append,
          List.length_tail]
        have hslen : (sortByCreated ts).length = ts.length :=
          (List.perm_insertionSort _ ts).length_eq
        rw [hslen]
        simp only [List.length_cons, List.length_nil, maxTemplates] at *
        omega
      · rw [saveTemplate, if_neg hany, if_neg hfull, List.length_append]
        simp only [List.length_cons, List.length_nil, maxTemplates] at *
        omega

/-- Witness for C10: an in-place overwrite keeping id and createdAt, a
length-preserving overwrite, an eviction from a full 50-template store,
and the 50-template bound. -/
theorem C10_saveTemplate_witness :
    (saveTemplate 99 7 (11 : ℕ)
        ([⟨1, 1, 0, 3, 0⟩] ++ (⟨2, 7, 9, 5, 4⟩ : Template ℕ) :: [⟨3, 2, 0, 8, 0⟩])
      = [⟨1, 1, 0, 3, 0⟩] ++ (⟨2, 7, 11, 5, 99⟩ : Template ℕ) :: [⟨3, 2, 0, 8, 0⟩]) ∧
    ((saveTemplate 99 7 (11 : ℕ) [(⟨1, 7, 0, 3, 0⟩ : Template ℕ)]).length
      = [(⟨1, 7, 0, 3, 0⟩ : Template ℕ)].length) ∧
    (saveTemplate 99 50 (11 : ℕ)
          ((List.range 50).map (fun i => (⟨i, i, 0, i, 0⟩ : Template ℕ)))
        = (sortByCreated
            ((List.range 50).map (fun i => (⟨i, i, 0, i, 0⟩ : Template ℕ)))).tail
          ++ [⟨99, 50, 11, 99, 99⟩] ∧
      ∃ ev, (sortByCreated
            ((List.range 50).map (fun i => (⟨i, i, 0, i, 0⟩ : Template ℕ)))).head?
          = some ev ∧
        ev ∈ (List.range 50).map (fun i => (⟨i, i, 0, i, 0⟩ : Template ℕ)) ∧
        ∀ u ∈ (List.range 50).map (fun i => (⟨i, i, 0, i, 0⟩ : Template ℕ)),
          ev.created ≤ u.created) ∧
    ((saveTemplate 99 50 (11 : ℕ)
        ((List.range 50).map (fun i => (⟨i, i, 0, i, 0⟩ : Template ℕ)))).length
      ≤ maxTemplates) :=
  ⟨(C10_saveTemplate 99 7 11).1 [⟨1, 1, 0, 3, 0⟩] [⟨3, 2, 0, 8, 0⟩] ⟨2, 7, 9, 5, 4⟩
      (by decide) (by decide),
    (C10_saveTemplate 99 7 11).2.1 [(⟨1, 7, 0, 3, 0⟩ : Template ℕ)] (by decide),
    (C10_saveTemplate 99 50 11).2.2.1
      ((List.range 50).map (fun i => (⟨i, i, 0, i, 0⟩ : Template ℕ)))
      (by decide) (by decide),
    (C10_saveTemplate 99 50 11).2.2.2
      ((List.range 50).map (fun i => (⟨i, i, 0, i, 0⟩ : Template ℕ)))
      (by decide)⟩

end TA
